import Mathlib

/-!
Verification of the csv2xlsx CSV-to-record conversion core (`csv2json`).

The definitions below are a shallow embedding of the JavaScript source:
separator detection, the PEG-generated backtracking parser (`parse_sv`,
`parse_line`, `parse_field`, `parse_char`), header cleaning and
de-duplication (`uniquify`), value coercion (`parseNumbers` / `parseJSON`,
via models of the host `Number` conversion and `JSON.parse`), and the
top-level `convert` pipeline.  Mutable-cursor parsing is embedded as
functions from the remaining character list to an optional result and rest;
starred grammar rules take a fuel argument (set to more than the input
length at the top level, which the greedy loops never exhaust since every
iteration consumes at least one character).
-/

namespace Csv2Json

/-- Decimal digit character, as produced by JavaScript number-to-string. -/
def digitChar : Nat → Char
  | 0 => '0' | 1 => '1' | 2 => '2' | 3 => '3' | 4 => '4'
  | 5 => '5' | 6 => '6' | 7 => '7' | 8 => '8' | _ => '9'

/-- Digits of `n` in base 10, most significant first, prepended to `acc`.
Fuel-based so that it reduces definitionally; fuel `n` suffices. -/
def natReprAux : Nat → Nat → List Char → List Char
  | 0, _, acc => acc
  | fuel + 1, n, acc =>
    if n = 0 then acc else natReprAux fuel (n / 10) (digitChar (n % 10) :: acc)

/-- Decimal rendering of a natural number (JavaScript `String(n)` for the
small non-negative integers produced by `uniquify`). -/
def natRepr (n : Nat) : String :=
  if n = 0 then "0" else ⟨natReprAux (n + 1) n []⟩

/-- Whether a character list contains two consecutive underscores. -/
def dUaux : List Char → Bool
  | '_' :: '_' :: _ => true
  | _ :: rest => dUaux rest
  | [] => false

/-- Whether a string contains the `__` separator convention used by
`uniquify` when renaming duplicate header keys. -/
def hasDU (s : String) : Bool := dUaux s.data

/-- JavaScript-object assignment `obj[k] = v` on an insertion-ordered
association list: overwrite in place if the key exists, else append. -/
def objInsert {α : Type} (m : List (String × α)) (k : String) (v : α) :
    List (String × α) :=
  if m.any (fun p => p.1 == k) then
    m.map (fun p => if p.1 == k then (k, v) else p)
  else m ++ [(k, v)]

/-- JavaScript `String.prototype.trim` whitespace (WhiteSpace and
LineTerminator code points). -/
def isJsSpace (c : Char) : Bool :=
  c == ' ' || c == '\t' || c == '\n' || c == '\r' ||
  c.toNat == 11 || c.toNat == 12 || c.toNat == 0xa0 || c.toNat == 0x1680 ||
  (0x2000 ≤ c.toNat && c.toNat ≤ 0x200a) ||
  c.toNat == 0x2028 || c.toNat == 0x2029 || c.toNat == 0x202f ||
  c.toNat == 0x205f || c.toNat == 0x3000 || c.toNat == 0xfeff

/-- Trim leading and trailing JavaScript whitespace from a character list. -/
def jsTrimList (cs : List Char) : List Char :=
  ((cs.dropWhile isJsSpace).reverse.dropWhile isJsSpace).reverse

/-- JavaScript `s.trim()`. -/
def jsTrim (s : String) : String := ⟨jsTrimList s.data⟩

/-- The replacement `s.replace(/(^")|("$)/g, '')` from the source: remove
one leading double quote if present, and one trailing double quote if one
remains after that. -/
def stripQuotes (s : String) : String :=
  let cs1 := if s.data.head? = some '"' then s.data.tail else s.data
  let cs2 := if cs1.getLast? = some '"' then cs1.dropLast else cs1
  ⟨cs2⟩

/-- The cell/header cleaning pass `value.trim().replace(/(^")|("$)/g, '')`
applied by `convert` to every header value and every data cell. -/
def cleanCell (s : String) : String := stripQuotes (jsTrim s)

/-- First pass of `uniquify`: `counts[key]` starts undefined, becomes `0`
on the first occurrence and is incremented on every further occurrence. -/
def bumpCount (counts : String → Option Nat) (key : String) :
    String → Option Nat :=
  fun k =>
    if k = key then
      match counts key with
      | none => some 0
      | some c => some (c + 1)
    else counts k

/-- The `counts` map after the first loop of `uniquify`. -/
def firstPass (keys : List String) : String → Option Nat :=
  keys.foldl bumpCount (fun _ => none)

/-- Second loop of `uniquify`: iterate from the last key down to the first
(the tail of the list is processed before the head), renaming a key to
`key __ counts[key]` and post-decrementing whenever its counter is
positive. -/
def uniquifyStep : List String → (String → Option Nat) →
    List String × (String → Option Nat)
  | [], counts => ([], counts)
  | key :: rest, counts =>
    let p := uniquifyStep rest counts
    match p.2 key with
    | some (n + 1) =>
      ((key ++ "__" ++ natRepr (n + 1)) :: p.1,
       fun k => if k = key then some n else p.2 k)
    | _ => (key :: p.1, p.2)

/-- Header de-duplication (`uniquify` in the source). -/
def uniquify (keys : List String) : List String :=
  (uniquifyStep keys (firstPass keys)).1

/-- The fixed candidate separators, in priority order. -/
def separatorsList : List Char := [',', ';', '\t']

/-- `detectSeparator`: count raw occurrences of each candidate anywhere in
the text; a later candidate replaces the current best only on a strictly
greater count (`sepMax` starts undefined, so the first candidate always
installs itself). -/
def detectSeparatorC (csv : String) : Char :=
  match separatorsList.foldl
      (fun sepMax sep =>
        match sepMax with
        | none => some sep
        | some m => if csv.data.count sep > csv.data.count m then some sep else some m)
      none with
  | some c => c
  | none => ','

/-- `parse_char`: an escaped quote `""` decodes to one `"`; otherwise any
single character except a bare `"`. -/
def parse_char : List Char → Option (Char × List Char)
  | '"' :: '"' :: rest => some ('"', rest)
  | '"' :: _ => none
  | c :: rest => some (c, rest)
  | [] => none

/-- Greedy `char*` inside a quoted field: consumed characters (with `""`
decoded to `"`) and the rest, stopping at a bare `"` or end of input. -/
def charStar : List Char → List Char × List Char
  | '"' :: '"' :: rest =>
    let p := charStar rest
    ('"' :: p.1, p.2)
  | '"' :: rest => ([], '"' :: rest)
  | c :: rest =>
    let p := charStar rest
    (c :: p.1, p.2)
  | [] => ([], [])

/-- Greedy unquoted-field run: characters other than `\n`, `\r` and the
separator; never fails, may be empty. -/
def unquotedField (sep : Char) : List Char → List Char × List Char
  | [] => ([], [])
  | c :: rest =>
    if c = '\n' ∨ c = '\r' ∨ c = sep then ([], c :: rest)
    else
      let p := unquotedField sep rest
      (c :: p.1, p.2)

/-- `parse_field`: try the quoted alternative (`'"' char* '"'`); if the
closing quote is missing, backtrack and parse an unquoted field from the
original position.  The unquoted alternative always succeeds. -/
def parse_field (sep : Char) (input : List Char) : String × List Char :=
  match input with
  | '"' :: rest =>
    let p := charStar rest
    match p.2 with
    | '"' :: r2 => (⟨p.1⟩, r2)
    | _ =>
      let u := unquotedField sep input
      (⟨u.1⟩, u.2)
  | _ =>
    let u := unquotedField sep input
    (⟨u.1⟩, u.2)

/-- The `(SEP field)*` loop of `parse_line`.  Each iteration consumes the
separator character first, so every iteration consumes at least one
character and the input length bounds the iteration count (fuel). -/
def lineTail (sep : Char) : Nat → List Char → List String × List Char
  | 0, input => ([], input)
  | _ + 1, [] => ([], [])
  | fuel + 1, c :: rest =>
    if c = sep then
      let f := parse_field sep rest
      let t := lineTail sep fuel f.2
      (f.1 :: t.1, t.2)
    else ([], c :: rest)

/-- `parse_line`: `field (SEP field)*`, guarded by the semantic predicate
`!!first || rest.length` — a line consisting of one empty unquoted field
and nothing else fails. -/
def parse_line (sep : Char) (fuel : Nat) (input : List Char) :
    Option (List String × List Char) :=
  let f := parse_field sep input
  let t := lineTail sep fuel f.2
  if f.1 = "" ∧ t.1 = [] then none else some (f.1 :: t.1, t.2)

/-- Greedy `[\n\r]*`. -/
def nlStar : List Char → List Char
  | c :: rest => if c = '\n' ∨ c = '\r' then nlStar rest else c :: rest
  | [] => []

/-- `[\n\r]+`: at least one line break, then greedily all following ones. -/
def nlPlus : List Char → Option (List Char)
  | c :: rest => if c = '\n' ∨ c = '\r' then some (nlStar rest) else none
  | [] => none

/-- The `([\n\r]+ line)*` loop of `parse_sv`; a failed iteration restores
the position to before its line breaks.  Each iteration consumes at least
one line-break character (fuel as for `lineTail`). -/
def svTail (sep : Char) : Nat → List Char → List (List String) × List Char
  | 0, input => ([], input)
  | fuel + 1, input =>
    match nlPlus input with
    | none => ([], input)
    | some r =>
      match parse_line sep fuel r with
      | none => ([], input)
      | some (line, r2) =>
        let t := svTail sep fuel r2
        (line :: t.1, t.2)

/-- `parse_sv`: `[\n\r]* line ([\n\r]+ line)* [\n\r]*` with the first line
prepended to the collected rest. -/
def parse_sv (sep : Char) (fuel : Nat) (input : List Char) :
    Option (List (List String) × List Char) :=
  match parse_line sep fuel (nlStar input) with
  | none => none
  | some (line1, r1) =>
    let t := svTail sep fuel r1
    some (line1 :: t.1, nlStar t.2)

/-- `csvParser.parse`: run the start rule for the chosen separator on the
whole input; a null result or a final position short of the input length
raises `SyntaxError` (modelled as `none`). -/
def csvParse (sep : Char) (input : String) : Option (List (List String)) :=
  match parse_sv sep (input.length + 1) input.data with
  | some (table, []) => some table
  | _ => none

/-- The row selected by `zip`'s `reduce`: the longest row, a later row
winning length ties. -/
def longestRow (rows : List (List String)) : List String :=
  rows.foldl (fun a b => if a.length > b.length then a else b) []

/-- `zip.apply(this, a)`: pivot rows and columns, row `i` of the result
collecting element `i` of every original row.  A missing cell (`undefined`
in the source) is modelled as the empty string, which is how every
consumer of the transposed table treats it. -/
def zipRows (rows : List (List String)) : List (List String) :=
  (List.range (longestRow rows).length).map
    (fun i => rows.map (fun row => row.getD i ""))

/-- The coercion target: a JavaScript/JSON value.  Numbers are modelled as
rationals (exact for the integral and decimal literals the claims
exercise). -/
inductive Value where
  | str (s : String)
  | num (q : Rat)
  | bool (b : Bool)
  | null
  | arr (vs : List Value)
  | obj (ms : List (String × Value))

/-- A Record: insertion-ordered mapping from header key to value. -/
abbrev Record : Type := List (String × Value)

/-- Numeric value of a digit list, for relating `natRepr` back to its
argument. -/
def valFold (ds : List Char) : Nat :=
  ds.foldl (fun a c => a * 10 + (c.toNat - 48)) 0

/-- Specification of one de-duplicated header key: the bare value when no
earlier position holds the same value, otherwise the value suffixed with
`__` and the number of earlier occurrences. -/
def uniquifySpec (keys : List String) (i : Nat) : String :=
  let key := keys.getD i ""
  let c := (keys.take i).count key
  if c = 0 then key else key ++ "__" ++ natRepr c

/-- Value of a run of decimal digit characters. -/
def digitsToNat (ds : List Char) : Nat :=
  ds.foldl (fun a c => a * 10 + (c.toNat - 48)) 0

/-- Hexadecimal digit test. -/
def isHexDigit (c : Char) : Bool :=
  c.isDigit || ('a' ≤ c && c ≤ 'f') || ('A' ≤ c && c ≤ 'F')

/-- The optional-exponent tail of a JavaScript decimal literal:
`[eE] [+-]? Digits`. -/
def jsExpTail : List Char → Bool
  | [] => true
  | 'e' :: r => jsExpDigits r
  | 'E' :: r => jsExpDigits r
  | _ => false
where
  /-- `[+-]? Digits`, consuming the whole rest. -/
  jsExpDigits (r : List Char) : Bool :=
    let r1 := match r with
      | '+' :: t => t
      | '-' :: t => t
      | t => t
    !r1.isEmpty && r1.all Char.isDigit

/-- An unsigned JavaScript decimal literal, whole-list match:
`Digits ('.' Digits?)? Exp?  |  '.' Digits Exp?`. -/
def jsDecimal (cs : List Char) : Bool :=
  match cs with
  | '.' :: rest =>
    let d := rest.takeWhile Char.isDigit
    !d.isEmpty && jsExpTail (rest.dropWhile Char.isDigit)
  | _ =>
    let d := cs.takeWhile Char.isDigit
    if d.isEmpty then false
    else
      match cs.dropWhile Char.isDigit with
      | '.' :: r2 => jsExpTail (r2.dropWhile Char.isDigit)
      | r => jsExpTail r

/-- Unsigned decimal literal or `Infinity`. -/
def jsDecimalOrInf (cs : List Char) : Bool :=
  if cs = "Infinity".data then true else jsDecimal cs

/-- The body of a JavaScript string-numeric literal after trimming:
hex/octal/binary integer literals (unsigned), or a signed decimal literal
or `Infinity`. -/
def jsNumericBody (cs : List Char) : Bool :=
  match cs with
  | '0' :: 'x' :: rest => !rest.isEmpty && rest.all isHexDigit
  | '0' :: 'X' :: rest => !rest.isEmpty && rest.all isHexDigit
  | '0' :: 'o' :: rest => !rest.isEmpty && rest.all (fun c => '0' ≤ c && c ≤ '7')
  | '0' :: 'O' :: rest => !rest.isEmpty && rest.all (fun c => '0' ≤ c && c ≤ '7')
  | '0' :: 'b' :: rest => !rest.isEmpty && rest.all (fun c => c == '0' || c == '1')
  | '0' :: 'B' :: rest => !rest.isEmpty && rest.all (fun c => c == '0' || c == '1')
  | '+' :: rest => jsDecimalOrInf rest
  | '-' :: rest => jsDecimalOrInf rest
  | _ => jsDecimalOrInf cs

/-- Whether the JavaScript conversion `value - 0` yields a non-NaN number
(`ToNumber` on a string trims whitespace; the empty remainder converts to
`0`, hence not NaN). -/
def jsToNumberOk (s : String) : Bool :=
  let t := jsTrimList s.data
  t.isEmpty || jsNumericBody t

/-- JSON insignificant whitespace. -/
def jsonSkipWs (cs : List Char) : List Char :=
  cs.dropWhile (fun c => c == ' ' || c == '\t' || c == '\n' || c == '\r')

/-- Exponent part of a JSON number after `e`/`E`: `[+-]? Digits`. -/
def jsonExp (r : List Char) : Option (Int × List Char) :=
  let p : Int × List Char := match r with
    | '+' :: t => (1, t)
    | '-' :: t => (-1, t)
    | t => (1, t)
  let ds := p.2.takeWhile Char.isDigit
  if ds.isEmpty then none
  else some (p.1 * (digitsToNat ds : Int), p.2.dropWhile Char.isDigit)

/-- A JSON number: `-? int frac? exp?` with `int = 0 | [1-9] Digits*`,
evaluated exactly as a rational. -/
def jsonNumber (cs0 : List Char) : Option (Rat × List Char) :=
  let sp : Bool × List Char := match cs0 with
    | '-' :: r => (true, r)
    | _ => (false, cs0)
  let ipart : Option (Nat × List Char) := match sp.2 with
    | '0' :: r => some (0, r)
    | c :: _ =>
      if c.isDigit then
        some (digitsToNat (sp.2.takeWhile Char.isDigit), sp.2.dropWhile Char.isDigit)
      else none
    | [] => none
  match ipart with
  | none => none
  | some (ip, cs2) =>
    let fracp : Option (Nat × Nat × List Char) := match cs2 with
      | '.' :: r =>
        let fd := r.takeWhile Char.isDigit
        if fd.isEmpty then none
        else some (digitsToNat fd, fd.length, r.dropWhile Char.isDigit)
      | _ => some (0, 0, cs2)
    match fracp with
    | none => none
    | some (fv, fl, cs3) =>
      let expp : Option (Int × List Char) := match cs3 with
        | 'e' :: r => jsonExp r
        | 'E' :: r => jsonExp r
        | _ => some (0, cs3)
      match expp with
      | none => none
      | some (ev, cs4) =>
        let mag : Rat := ((ip : Rat) + (fv : Rat) / (10 : Rat) ^ fl) * (10 : Rat) ^ ev
        some (if sp.1 then -mag else mag, cs4)

/-- Hexadecimal digit value. -/
def hexVal (c : Char) : Nat :=
  if c.isDigit then c.toNat - 48
  else if 'a' ≤ c && c ≤ 'f' then c.toNat - 87
  else c.toNat - 55

/-- Body of a JSON string after the opening quote: characters up to the
closing quote, decoding escapes.  (A `\u` escape denoting a lone surrogate
is modelled as `Char.ofNat`'s fallback.) -/
def jsonStringAux : Nat → List Char → Option (List Char × List Char)
  | 0, _ => none
  | fuel + 1, cs =>
    match cs with
    | '"' :: r => some ([], r)
    | '\\' :: e :: r =>
      let esc : Option (Char × List Char) := match e, r with
        | '"', _ => some ('"', r)
        | '\\', _ => some ('\\', r)
        | '/', _ => some ('/', r)
        | 'b', _ => some (Char.ofNat 8, r)
        | 'f', _ => some (Char.ofNat 12, r)
        | 'n', _ => some ('\n', r)
        | 'r', _ => some ('\r', r)
        | 't', _ => some ('\t', r)
        | 'u', a :: b :: c :: d :: r2 =>
          if isHexDigit a && isHexDigit b && isHexDigit c && isHexDigit d then
            some (Char.ofNat (((hexVal a * 16 + hexVal b) * 16 + hexVal c) * 16 + hexVal d), r2)
          else none
        | _, _ => none
      match esc with
      | some (c, r2) =>
        (jsonStringAux fuel r2).map (fun p => (c :: p.1, p.2))
      | none => none
    | c :: r =>
      if c.toNat < 0x20 then none
      else (jsonStringAux fuel r).map (fun p => (c :: p.1, p.2))
    | [] => none

mutual

/-- A JSON value with leading insignificant whitespace skipped:
`true`, `false`, `null`, string, array, object, or number. -/
def jsonValue : Nat → List Char → Option (Value × List Char)
  | 0, _ => none
  | fuel + 1, cs =>
    match jsonSkipWs cs with
    | 't' :: 'r' :: 'u' :: 'e' :: r => some (.bool true, r)
    | 'f' :: 'a' :: 'l' :: 's' :: 'e' :: r => some (.bool false, r)
    | 'n' :: 'u' :: 'l' :: 'l' :: r => some (.null, r)
    | '"' :: r =>
      (jsonStringAux (r.length + 1) r).map (fun p => (.str ⟨p.1⟩, p.2))
    | '[' :: r =>
      (match jsonSkipWs r with
       | ']' :: r2 => some (.arr [], r2)
       | _ => (jsonElems fuel r).map (fun p => (.arr p.1, p.2)))
    | '{' :: r =>
      (match jsonSkipWs r with
       | '}' :: r2 => some (.obj [], r2)
       | _ => (jsonMembers fuel r []).map (fun p => (.obj p.1, p.2)))
    | cs1 => (jsonNumber cs1).map (fun p => (.num p.1, p.2))

/-- Non-empty JSON array elements: `value (',' value)* ']'`. -/
def jsonElems : Nat → List Char → Option (List Value × List Char)
  | 0, _ => none
  | fuel + 1, cs =>
    match jsonValue fuel cs with
    | none => none
    | some (v, r) =>
      match jsonSkipWs r with
      | ',' :: r2 => (jsonElems fuel r2).map (fun p => (v :: p.1, p.2))
      | ']' :: r2 => some ([v], r2)
      | _ => none

/-- Non-empty JSON object members, accumulated left to right with
JavaScript assignment semantics (a repeated key keeps its first position
and takes its last value). -/
def jsonMembers : Nat → List Char → List (String × Value) →
    Option (List (String × Value) × List Char)
  | 0, _, _ => none
  | fuel + 1, cs, acc =>
    match jsonSkipWs cs with
    | '"' :: r =>
      match jsonStringAux (r.length + 1) r with
      | none => none
      | some (kcs, r2) =>
        match jsonSkipWs r2 with
        | ':' :: r3 =>
          match jsonValue fuel r3 with
          | none => none
          | some (v, r4) =>
            match jsonSkipWs r4 with
            | ',' :: r5 => jsonMembers fuel r5 (objInsert acc ⟨kcs⟩ v)
            | '}' :: r5 => some (objInsert acc ⟨kcs⟩ v, r5)
            | _ => none
        | _ => none
    | _ => none

end

/-- The host `JSON.parse`: a single JSON value surrounded by whitespace,
consuming the whole text; a syntax error is `none`. -/
def jsonParse (s : String) : Option Value :=
  match jsonValue (2 * s.length + 2) s.data with
  | some (v, rest) => if (jsonSkipWs rest).isEmpty then some v else none
  | none => none

/-- Per-cell coercion (lines 146–160 of the source, after cleaning):
`number = value === "" ? NaN : value - 0`; if
`parseJSON || parseNumbers && !isNaN(number)`, try `JSON.parse(value)`
and fall back to the cleaned string on failure; otherwise keep the
cleaned string. -/
def coerceValue (parseNumbersOpt parseJSONOpt : Bool) (value : String) : Value :=
  let numberOk := value != "" && jsToNumberOk value
  if parseJSONOpt || (parseNumbersOpt && numberOk) then
    match jsonParse value with
    | some v => v
    | none => .str value
  else .str value

/-- The recognized option keys of `convert`. -/
structure Options where
  separator : Option String
  parseNumbers : Bool
  parseJSON : Bool
  transpose : Bool
  hash : Bool
  returnArray : Bool

/-- All options off (the `{}` default). -/
def opts0 : Options := ⟨none, false, false, false, false, false⟩

/-- The errors `convert` can throw.  `typeErr` stands for the host
`TypeError` that `keys.length` on `undefined` would raise if the parsed
table were empty (shown unreachable below). -/
inductive ConvError where
  | empty
  | undetectableSeparator
  | emptyHeader
  | typeErr
  | syntaxErr

/-- The three output shapes. -/
inductive Output where
  | raw (t : List (List String))
  | arr (rs : List Record)
  | hmap (m : List (String × Record))

/-- Build one Record from a data row: iterate header keys in order; the
cell is the row's field at that index or the empty string; clean it; in
hash mode index 0 is skipped (it becomes the extraction key); otherwise
assign the coerced value under the key. -/
def buildRecordGo (opts : Options) (row : List String) :
    Nat → List String → Record → Record
  | _, [], rec => rec
  | i, key :: restKeys, rec =>
    let value := cleanCell (row.getD i "")
    let rec1 :=
      if opts.hash ∧ i = 0 then rec
      else objInsert rec key (coerceValue opts.parseNumbers opts.parseJSON value)
    buildRecordGo opts row (i + 1) restKeys rec1

/-- The Record for one data row. -/
def buildRecord (opts : Options) (keys : List String) (row : List String) :
    Record :=
  buildRecordGo opts row 0 keys []

/-- The cleaned, de-duplicated header keys taken from the first row. -/
def headerKeys (keys0 : List String) : List String :=
  uniquify (keys0.map cleanCell)

/-- The pipeline after parsing: optional transpose, raw-matrix
short-circuit, header extraction and check, record assembly (array or
hash mode; in hash mode a later row with an equal extracted key
overwrites the earlier entry). -/
def convertTable (table : List (List String)) (opts : Options) :
    Except ConvError Output :=
  let a := if opts.transpose then zipRows table else table
  if opts.returnArray then .ok (.raw a)
  else
    match a with
    | [] => .error .typeErr
    | keys0 :: rows =>
      if keys0.length = 0 then .error .emptyHeader
      else
        let keys := headerKeys keys0
        if opts.hash then
          .ok (.hmap (rows.foldl
            (fun m row => objInsert m (cleanCell (row.getD 0 "")) (buildRecord opts keys row))
            []))
        else .ok (.arr (rows.map (buildRecord opts keys)))

/-- `convert(csv, options)`: reject empty input; resolve the separator
(an explicit non-empty option wins, otherwise detection); the
`!separator` guard; map the separator to a start rule (an unrecognized
separator falls back to the comma rule, as
`pegjsSeparatorNames[separator]` is `undefined`); parse; hand off to the
table pipeline. -/
def convert (csv : String) (opts : Options) : Except ConvError Output :=
  if csv.length = 0 then .error .empty
  else
    let separator : String := match opts.separator with
      | some s => if s = "" then ⟨[detectSeparatorC csv]⟩ else s
      | none => ⟨[detectSeparatorC csv]⟩
    if separator = "" then .error .undetectableSeparator
    else
      let sepChar : Char :=
        if separator = "," then ','
        else if separator = ";" then ';'
        else if separator = "\t" then '\t'
        else ','
      match csvParse sepChar csv with
      | none => .error .syntaxErr
      | some table => convertTable table opts

/-! ## Properties of the decimal rendering `natRepr` -/

theorem digitChar_isDigit (m : Nat) : (digitChar m).isDigit = true := by
  unfold digitChar
  split <;> decide

theorem isDigit_ne_underscore {c : Char} (h : c.isDigit = true) : c ≠ '_' := by
  intro heq
  subst heq
  exact absurd h (by decide)

theorem natReprAux_append (fuel : Nat) :
    ∀ n acc, natReprAux fuel n acc = natReprAux fuel n [] ++ acc := by
  induction fuel with
  | zero => intro n acc; rfl
  | succ f ih =>
    intro n acc
    by_cases hn : n = 0
    · simp [natReprAux, hn]
    · rw [natReprAux, natReprAux, if_neg hn, if_neg hn, ih (n / 10),
        ih (n / 10) [digitChar (n % 10)], List.append_assoc]
      rfl

theorem natReprAux_digits (fuel : Nat) :
    ∀ n acc c, (∀ x ∈ acc, x.isDigit = true) →
      c ∈ natReprAux fuel n acc → c.isDigit = true := by
  induction fuel with
  | zero => intro n acc c hacc hc; exact hacc c hc
  | succ f ih =>
    intro n acc c hacc hc
    by_cases hn : n = 0
    · rw [natReprAux, if_pos hn] at hc; exact hacc c hc
    · rw [natReprAux, if_neg hn] at hc
      refine ih (n / 10) _ c ?_ hc
      intro x hx
      rcases List.mem_cons.mp hx with hx2 | hx2
      · rw [hx2]; exact digitChar_isDigit _
      · exact hacc x hx2

theorem natReprAux_ne_nil (fuel n : Nat) (hn : n ≠ 0) :
    natReprAux (fuel + 1) n [] ≠ [] := by
  rw [natReprAux, if_neg hn, natReprAux_append]
  simp

theorem valFold_concat (xs : List Char) (c : Char) :
    valFold (xs ++ [c]) = valFold xs * 10 + (c.toNat - 48) := by
  simp [valFold, List.foldl_append]

theorem digitChar_toNat (r : Nat) (h : r < 10) : (digitChar r).toNat - 48 = r := by
  interval_cases r <;> decide

theorem natReprAux_zero (fuel : Nat) : natReprAux fuel 0 [] = [] := by
  cases fuel <;> simp [natReprAux]

theorem valFold_natReprAux :
    ∀ n fuel, 0 < n → n ≤ fuel → valFold (natReprAux fuel n []) = n := by
  intro n
  induction n using Nat.strong_induction_on with
  | _ n ih =>
    intro fuel hpos hfuel
    match fuel with
    | 0 => omega
    | f + 1 =>
      rw [natReprAux, if_neg (Nat.pos_iff_ne_zero.mp hpos),
        natReprAux_append]
      rw [valFold_concat, digitChar_toNat _ (Nat.mod_lt n (by omega))]
      by_cases hq : n / 10 = 0
      · rw [hq, natReprAux_zero]
        have : n % 10 = n := Nat.mod_eq_of_lt (by omega)
        simp [valFold, this]
      · have hlt : n / 10 < n := Nat.div_lt_self hpos (by omega)
        rw [ih (n / 10) hlt f (Nat.pos_iff_ne_zero.mpr hq) (by omega)]
        omega

theorem natRepr_pos_inj {a b : Nat} (ha : 0 < a) (hb : 0 < b)
    (h : natRepr a = natRepr b) : a = b := by
  unfold natRepr at h
  rw [if_neg (by omega), if_neg (by omega)] at h
  have hdata : natReprAux (a + 1) a [] = natReprAux (b + 1) b [] :=
    congrArg String.data h
  have h1 := valFold_natReprAux a (a + 1) ha (by omega)
  have h2 := valFold_natReprAux b (b + 1) hb (by omega)
  rw [hdata] at h1
  omega

theorem natRepr_no_underscore {n : Nat} (hn : 0 < n) :
    '_' ∉ (natRepr n).data := by
  intro hmem
  unfold natRepr at hmem
  rw [if_neg (by omega)] at hmem
  exact isDigit_ne_underscore
    (natReprAux_digits (n + 1) n [] '_' (by simp) hmem) rfl

theorem natRepr_data_ne_nil {n : Nat} (hn : 0 < n) : (natRepr n).data ≠ [] := by
  unfold natRepr
  rw [if_neg (by omega)]
  exact natReprAux_ne_nil n n (by omega)

/-! ## Properties of the double-underscore test `dUaux` -/

theorem dUaux_cons_true (c : Char) (l : List Char) (h : dUaux l = true) :
    dUaux (c :: l) = true := by
  rw [dUaux.eq_def]
  split
  · rfl
  · rename_i x rest heq
    injection heq with h1 h2
    exact h2 ▸ h
  · rename_i heq; cases heq

theorem dUaux_tail {c : Char} {l : List Char} (h : dUaux (c :: l) = false) :
    dUaux l = false := by
  by_contra hne
  have := dUaux_cons_true c l (by revert hne; cases dUaux l <;> simp)
  rw [h] at this
  cases this

theorem dUaux_append_du (b m : List Char) :
    dUaux (b ++ '_' :: '_' :: m) = true := by
  induction b with
  | nil => rfl
  | cons c b' ih => exact dUaux_cons_true c _ ih

theorem du_split :
    ∀ (a b m n : List Char),
      dUaux a = false → dUaux b = false → '_' ∉ m → '_' ∉ n →
      m ≠ [] → n ≠ [] →
      a ++ '_' :: '_' :: m = b ++ '_' :: '_' :: n → a = b ∧ m = n := by
  intro a
  induction a with
  | nil =>
    intro b m n _ hb hm hn hmne hnne heq
    cases b with
    | nil =>
      refine ⟨rfl, ?_⟩
      simpa using heq
    | cons c b' =>
      simp only [List.nil_append, List.cons_append, List.cons.injEq] at heq
      obtain ⟨hc, heq2⟩ := heq
      cases b' with
      | nil =>
        simp only [List.nil_append, List.cons.injEq] at heq2
        obtain ⟨-, hm2⟩ := heq2
        exact absurd (hm2 ▸ List.mem_cons_self '_' n) hm
      | cons c2 b'' =>
        simp only [List.cons_append, List.cons.injEq] at heq2
        obtain ⟨hc2, -⟩ := heq2
        rw [← hc, ← hc2] at hb
        rw [dUaux] at hb
        cases hb
  | cons x a' ih =>
    intro b m n ha hb hm hn hmne hnne heq
    cases b with
    | nil =>
      simp only [List.cons_append, List.nil_append, List.cons.injEq] at heq
      obtain ⟨hx, heq2⟩ := heq
      cases a' with
      | nil =>
        simp only [List.nil_append, List.cons.injEq] at heq2
        obtain ⟨-, hn2⟩ := heq2
        exact absurd (hn2.symm ▸ List.mem_cons_self '_' m) hn
      | cons y a'' =>
        simp only [List.cons_append, List.cons.injEq] at heq2
        obtain ⟨hy, -⟩ := heq2
        subst hx
        subst hy
        rw [dUaux] at ha
        cases ha
    | cons y b' =>
      simp only [List.cons_append, List.cons.injEq] at heq
      obtain ⟨hxy, heq2⟩ := heq
      obtain ⟨hab, hmn⟩ :=
        ih b' m n (dUaux_tail ha) (dUaux_tail hb) hm hn hmne hnne heq2
      exact ⟨by rw [hxy, hab], hmn⟩

/-! ## Characterization of `uniquify` -/

theorem foldl_bumpCount (l : List String) :
    ∀ (g : String → Option Nat) (v : String),
      (l.foldl bumpCount g) v =
        match g v with
        | none => if l.count v = 0 then none else some (l.count v - 1)
        | some c => some (c + l.count v) := by
  induction l with
  | nil =>
    intro g v
    cases hg : g v <;> simp [hg]
  | cons k l ih =>
    intro g v
    rw [List.foldl_cons, ih]
    by_cases hv : v = k
    · subst hv
      rcases hg : g v with - | c
      · have : bumpCount g v v = some 0 := by simp [bumpCount, hg]
        rw [this]
        simp [hg, List.count_cons_self]
      · have : bumpCount g v v = some (c + 1) := by simp [bumpCount, hg]
        rw [this]
        simp [hg, List.count_cons_self]
        omega
    · have : bumpCount g k v = g v := by simp [bumpCount, hv]
      rw [this]
      rw [List.count_cons_of_ne hv]

theorem firstPass_eval (keys : List String) (v : String) :
    firstPass keys v =
      if keys.count v = 0 then none else some (keys.count v - 1) := by
  rw [firstPass, foldl_bumpCount]

theorem uniquifyStep_snd (l : List String) (counts : String → Option Nat) :
    ∀ v, (uniquifyStep l counts).2 v =
      match counts v with
      | none => none
      | some c => some (c - l.count v) := by
  induction l with
  | nil =>
    intro v
    cases hc : counts v <;> simp [uniquifyStep, hc]
  | cons key rest ih =>
    intro v
    rw [uniquifyStep]
    rcases hpk : (uniquifyStep rest counts).2 key with - | n
    · dsimp only
      have hck : counts key = none := by
        have hik := ih key
        rw [hpk] at hik
        rcases hc : counts key with - | c
        · rfl
        · rw [hc] at hik; cases hik
      rw [ih v]
      by_cases hv : v = key
      · subst hv
        rw [hck]
      · rw [List.count_cons_of_ne hv]
    · rcases hc : counts key with - | c
      · have hik := ih key
        rw [hpk, hc] at hik
        cases hik
      · have hcount : c - rest.count key = n := by
          have hik := ih key
          rw [hpk, hc] at hik
          injection hik with h2
          omega
        cases n with
        | zero =>
          dsimp only
          rw [ih v]
          by_cases hv : v = key
          · subst hv
            rw [hc, List.count_cons_self]
            simp only [Option.some.injEq]
            omega
          · rw [List.count_cons_of_ne hv]
        | succ n' =>
          dsimp only
          by_cases hv : v = key
          · subst hv
            rw [if_pos rfl, hc, List.count_cons_self]
            simp only [Option.some.injEq]
            omega
          · rw [if_neg hv, ih v, List.count_cons_of_ne hv]

theorem uniquifyStep_fst_length (l : List String) (counts : String → Option Nat) :
    (uniquifyStep l counts).1.length = l.length := by
  induction l with
  | nil => rfl
  | cons key rest ih =>
    rw [uniquifyStep]
    rcases hpk : (uniquifyStep rest counts).2 key with - | n
    · simpa using ih
    · cases n with
      | zero => simpa using ih
      | succ n' => simpa using ih

theorem uniquifyStep_getD (l : List String) (counts : String → Option Nat) :
    ∀ i, i < l.length →
      (uniquifyStep l counts).1.getD i "" =
        (match counts (l.getD i "") with
        | some c =>
          if c - ((l.drop (i + 1)).count (l.getD i "")) = 0 then l.getD i ""
          else l.getD i "" ++ "__" ++
            natRepr (c - (l.drop (i + 1)).count (l.getD i ""))
        | none => l.getD i "") := by
  induction l with
  | nil => intro i hi; cases hi
  | cons key rest ih =>
    intro i hi
    cases i with
    | zero =>
      have hgd : (key :: rest).getD 0 "" = key := rfl
      have hdrop : (key :: rest).drop 1 = rest := rfl
      rw [hgd, hdrop, uniquifyStep]
      have hsnd := uniquifyStep_snd rest counts key
      rcases hc : counts key with - | c
      · rw [hc] at hsnd
        simp only at hsnd
        rw [hsnd]
        rfl
      · rw [hc] at hsnd
        simp only at hsnd
        rw [hsnd]
        rcases hval : c - rest.count key with - | n
        · dsimp only
          simp only [List.getD_cons_zero]
          rw [if_pos hval]
        · dsimp only
          simp only [List.getD_cons_zero]
          rw [if_neg (by omega), hval]
    | succ i' =>
      have hi' : i' < rest.length := by simpa using hi
      have hgd : (key :: rest).getD (i' + 1) "" = rest.getD i' "" := rfl
      have hdrop : (key :: rest).drop (i' + 1 + 1) = rest.drop (i' + 1) := rfl
      rw [hgd, hdrop, uniquifyStep]
      rcases hpk : (uniquifyStep rest counts).2 key with - | n
      · dsimp only
        rw [List.getD_cons_succ]
        exact ih i' hi'
      · cases n with
        | zero =>
          dsimp only
          rw [List.getD_cons_succ]
          exact ih i' hi'
        | succ n' =>
          dsimp only
          rw [List.getD_cons_succ]
          exact ih i' hi'

theorem uniquify_length (keys : List String) :
    (uniquify keys).length = keys.length :=
  uniquifyStep_fst_length keys (firstPass keys)

theorem count_take_succ_self (keys : List String) (i : Nat)
    (hi : i < keys.length) :
    (keys.take (i + 1)).count (keys.getD i "") =
      (keys.take i).count (keys.getD i "") + 1 := by
  rw [List.take_succ]
  rw [List.getElem?_eq_getElem hi]
  rw [List.count_append]
  rw [List.getD_eq_getElem keys "" hi]
  simp [List.count_singleton_self]

theorem uniquify_getD (keys : List String) (i : Nat) (hi : i < keys.length) :
    (uniquify keys).getD i "" = uniquifySpec keys i := by
  have hkey : keys.getD i "" = keys[i] := List.getD_eq_getElem keys "" hi
  have hmem : keys.getD i "" ∈ keys := by
    rw [hkey]; exact List.getElem_mem hi
  have hcpos : 0 < keys.count (keys.getD i "") := List.count_pos_iff.mpr hmem
  rw [uniquify, uniquifyStep_getD keys (firstPass keys) i hi,
    firstPass_eval keys (keys.getD i "")]
  rw [if_neg (by omega)]
  have hsplit : ∀ v : String, keys.count v =
      (keys.take (i + 1)).count v + (keys.drop (i + 1)).count v := by
    intro v
    conv_lhs => rw [← List.take_append_drop (i + 1) keys]
    rw [List.count_append]
  have hsplit2 := hsplit (keys.getD i "")
  have htake := count_take_succ_self keys i hi
  have harith : keys.count (keys.getD i "") - 1 -
      (keys.drop (i + 1)).count (keys.getD i "") =
      (keys.take i).count (keys.getD i "") := by omega
  simp only [harith, uniquifySpec]

theorem uniquify_nodup (keys : List String)
    (hdu : ∀ k ∈ keys, hasDU k = false) : (uniquify keys).Nodup := by
  unfold List.Nodup
  rw [List.pairwise_iff_getElem]
  intro i j hi hj hij
  have hilen : i < keys.length := by
    have := uniquify_length keys; omega
  have hjlen : j < keys.length := by
    have := uniquify_length keys; omega
  intro heq
  have hgi : (uniquify keys)[i] = uniquifySpec keys i := by
    rw [← List.getD_eq_getElem (uniquify keys) "" hi]
    exact uniquify_getD keys i hilen
  have hgj : (uniquify keys)[j] = uniquifySpec keys j := by
    rw [← List.getD_eq_getElem (uniquify keys) "" hj]
    exact uniquify_getD keys j hjlen
  rw [hgi, hgj] at heq
  have hki : keys.getD i "" = keys[i] := List.getD_eq_getElem keys "" hilen
  have hkj : keys.getD j "" = keys[j] := List.getD_eq_getElem keys "" hjlen
  have hdui : hasDU (keys.getD i "") = false := by
    rw [hki]; exact hdu _ (List.getElem_mem hilen)
  have hduj : hasDU (keys.getD j "") = false := by
    rw [hkj]; exact hdu _ (List.getElem_mem hjlen)
  have hmemtake : keys.getD i "" ∈ keys.take j := by
    have hlt : i < (keys.take j).length := by
      simp [List.length_take]
      omega
    have hgt : (keys.take j)[i] = keys[i] := (List.getElem_take' keys hilen hij).symm
    rw [hki, ← hgt]
    exact List.getElem_mem hlt
  have hcj_pos : 0 < (keys.take j).count (keys.getD i "") :=
    List.count_pos_iff.mpr hmemtake
  rw [uniquifySpec, uniquifySpec] at heq
  by_cases hci : (keys.take i).count (keys.getD i "") = 0 <;>
    by_cases hcj : (keys.take j).count (keys.getD j "") = 0
  · -- both bare: keys[i] = keys[j], but then position i < j makes
    -- the count of keys[j] in take j positive
    rw [if_pos hci, if_pos hcj] at heq
    rw [heq] at hcj_pos
    omega
  · -- bare versus renamed: the renamed key contains a double underscore
    rw [if_pos hci, if_neg hcj] at heq
    have : dUaux (keys.getD i "").data = true := by
      rw [heq]
      have hdata : (keys.getD j "" ++ "__" ++
          natRepr ((keys.take j).count (keys.getD j ""))).data =
          (keys.getD j "").data ++ '_' :: '_' ::
            (natRepr ((keys.take j).count (keys.getD j ""))).data := by
        cases keys.getD j "" with
        | mk l =>
          cases natRepr ((keys.take j).count (keys.getD j "")) with
          | mk l2 => simp [String.data]
      rw [hdata]
      exact dUaux_append_du _ _
    rw [hasDU] at hdui
    rw [this] at hdui
    cases hdui
  · -- renamed versus bare: symmetric
    rw [if_neg hci, if_pos hcj] at heq
    have : dUaux (keys.getD j "").data = true := by
      rw [← heq]
      have hdata : (keys.getD i "" ++ "__" ++
          natRepr ((keys.take i).count (keys.getD i ""))).data =
          (keys.getD i "").data ++ '_' :: '_' ::
            (natRepr ((keys.take i).count (keys.getD i ""))).data := by
        cases keys.getD i "" with
        | mk l =>
          cases natRepr ((keys.take i).count (keys.getD i "")) with
          | mk l2 => simp [String.data]
      rw [hdata]
      exact dUaux_append_du _ _
    rw [hasDU] at hduj
    rw [this] at hduj
    cases hduj
  · -- both renamed: split the equation, forcing equal values and equal
    -- counters, but the counter strictly grows from position i to j
    rw [if_neg hci, if_neg hcj] at heq
    have hdq := congrArg String.data heq
    have hdatai : (keys.getD i "" ++ "__" ++
        natRepr ((keys.take i).count (keys.getD i ""))).data =
        (keys.getD i "").data ++ '_' :: '_' ::
          (natRepr ((keys.take i).count (keys.getD i ""))).data := by
      cases keys.getD i "" with
      | mk l =>
        cases natRepr ((keys.take i).count (keys.getD i "")) with
        | mk l2 => simp [String.data]
    have hdataj : (keys.getD j "" ++ "__" ++
        natRepr ((keys.take j).count (keys.getD j ""))).data =
        (keys.getD j "").data ++ '_' :: '_' ::
          (natRepr ((keys.take j).count (keys.getD j ""))).data := by
      cases keys.getD j "" with
      | mk l =>
        cases natRepr ((keys.take j).count (keys.getD j "")) with
        | mk l2 => simp [String.data]
    rw [hdatai, hdataj] at hdq
    obtain ⟨hvals, hcounters⟩ := du_split _ _ _ _ hdui hduj
      (natRepr_no_underscore (by omega))
      (natRepr_no_underscore (by omega))
      (natRepr_data_ne_nil (by omega))
      (natRepr_data_ne_nil (by omega)) hdq
    have hveq : keys.getD i "" = keys.getD j "" := by
      cases hgdi : keys.getD i "" with
      | mk l1 =>
        cases hgdj : keys.getD j "" with
        | mk l2 =>
          rw [hgdi, hgdj] at hvals
          simp [String.data] at hvals
          rw [hvals]
    have hcnteq : (keys.take i).count (keys.getD i "") =
        (keys.take j).count (keys.getD j "") := by
      apply natRepr_pos_inj (by omega) (by omega)
      cases hne : natRepr ((keys.take i).count (keys.getD i "")) with
      | mk l1 =>
        cases hne2 : natRepr ((keys.take j).count (keys.getD j "")) with
        | mk l2 =>
          rw [hne, hne2] at hcounters
          simp [String.data] at hcounters
          rw [hcounters]
    -- the i-th prefix count is strictly below the j-th prefix count
    have hsub : List.Sublist (keys.take (i + 1)) (keys.take j) := by
      have : (keys.take j).take (i + 1) = keys.take (i + 1) := by
        rw [List.take_take]
        congr 1
        omega
      rw [← this]
      exact List.take_sublist _ _
    have hmono : (keys.take (i + 1)).count (keys.getD i "") ≤
        (keys.take j).count (keys.getD i "") := hsub.count_le _
    have htake := count_take_succ_self keys i hilen
    rw [← hveq] at hcnteq
    omega

theorem uniquify_of_nodup (keys : List String) (hnd : keys.Nodup) :
    uniquify keys = keys := by
  apply List.ext_getElem (uniquify_length keys)
  intro i hi hi2
  have hgd := uniquify_getD keys i hi2
  rw [List.getD_eq_getElem (uniquify keys) "" hi] at hgd
  rw [hgd, uniquifySpec]
  have hz : (keys.take i).count (keys.getD i "") = 0 := by
    by_contra hne
    have hmem : keys.getD i "" ∈ keys.take i :=
      List.count_pos_iff.mp (by omega)
    obtain ⟨j, hjlt, hjeq⟩ := List.getElem_of_mem hmem
    have hjlti : j < i := by
      simp [List.length_take] at hjlt
      omega
    have hjlen : j < keys.length := by omega
    rw [← List.getElem_take' keys hjlen hjlti] at hjeq
    rw [List.getD_eq_getElem keys "" hi2] at hjeq
    have hnd' : List.Pairwise (fun a b => a ≠ b) keys := hnd
    exact (List.pairwise_iff_getElem.mp hnd') j i hjlen hi2 hjlti hjeq
  rw [if_pos hz]
  exact List.getD_eq_getElem keys "" hi2

/-! ## Properties of the grammar parser -/

theorem charStar_cons_ne (c : Char) (rest : List Char) (hc : c ≠ '"') :
    charStar (c :: rest) = (c :: (charStar rest).1, (charStar rest).2) := by
  rw [charStar.eq_def]
  split
  · rename_i r heq
    injection heq with h1 h2
    exact absurd h1 hc
  · rename_i r heq
    injection heq with h1 h2
    exact absurd h1 hc
  · rename_i c2 r2 heq
    injection heq with h1 h2
    subst h1
    subst h2
    rfl
  · rename_i heq
    cases heq

theorem charStar_no_quote (l : List Char) (hl : '"' ∉ l) :
    charStar l = (l, []) := by
  induction l with
  | nil => rfl
  | cons c rest ih =>
    have hc : c ≠ '"' := fun h => hl (h ▸ List.mem_cons_self c rest)
    have hrest : '"' ∉ rest := fun h => hl (List.mem_cons_of_mem c h)
    rw [charStar_cons_ne c rest hc, ih hrest]

theorem charStar_until_quote (cs rest : List Char) (hcs : '"' ∉ cs)
    (hrest : rest.head? ≠ some '"') :
    charStar (cs ++ '"' :: rest) = (cs, '"' :: rest) := by
  induction cs with
  | nil =>
    rw [List.nil_append, charStar.eq_def]
    split
    · rename_i r heq
      injection heq with h1 h2
      exact absurd (by rw [h2]; rfl : rest.head? = some '"') hrest
    · rename_i r heq
      injection heq with h1 h2
      rw [h2]
    · rename_i hne heq
      injection heq with h1 h2
      exact absurd h1.symm hne
    · rename_i heq
      cases heq
  | cons c cs' ih =>
    have hc : c ≠ '"' := fun h => hcs (h ▸ List.mem_cons_self c cs')
    have hcs' : '"' ∉ cs' := fun h => hcs (List.mem_cons_of_mem c h)
    rw [List.cons_append, charStar_cons_ne c _ hc, ih hcs']

theorem unquotedField_all (sep : Char) (l : List Char)
    (hl : ∀ c ∈ l, ¬(c = '\n' ∨ c = '\r' ∨ c = sep)) :
    unquotedField sep l = (l, []) := by
  induction l with
  | nil => rfl
  | cons c rest ih =>
    rw [unquotedField, if_neg (hl c (List.mem_cons_self c rest)),
      ih (fun x hx => hl x (List.mem_cons_of_mem c hx))]

theorem parse_field_quoted (sep : Char) (cs rest : List Char)
    (hcs : '"' ∉ cs) (hrest : rest.head? ≠ some '"') :
    parse_field sep ('"' :: (cs ++ '"' :: rest)) = (⟨cs⟩, rest) := by
  rw [parse_field]
  rw [charStar_until_quote cs rest hcs hrest]
  rfl

theorem parse_field_unterminated (sep : Char) (cs : List Char)
    (hsep : sep ≠ '"') (hq : '"' ∉ cs) (hn : '\n' ∉ cs) (hr : '\r' ∉ cs)
    (hs : sep ∉ cs) :
    parse_field sep ('"' :: cs) = (⟨'"' :: cs⟩, []) := by
  rw [parse_field]
  rw [charStar_no_quote cs hq]
  have hall : ∀ c ∈ '"' :: cs, ¬(c = '\n' ∨ c = '\r' ∨ c = sep) := by
    intro c hc
    rcases List.mem_cons.mp hc with hc2 | hc2
    · subst hc2
      rintro (h | h | h)
      · cases h
      · cases h
      · exact hsep h.symm
    · rintro (h | h | h)
      · exact hn (h ▸ hc2)
      · exact hr (h ▸ hc2)
      · exact hs (h ▸ hc2)
  rw [unquotedField_all sep ('"' :: cs) hall]

theorem lineTail_nil (sep : Char) (fuel : Nat) :
    lineTail sep fuel [] = ([], []) := by
  cases fuel <;> rfl

theorem svTail_nil (sep : Char) (fuel : Nat) :
    svTail sep fuel [] = ([], []) := by
  cases fuel <;> rfl

theorem nlStar_cons_ne (c : Char) (rest : List Char)
    (hc : ¬(c = '\n' ∨ c = '\r')) : nlStar (c :: rest) = c :: rest := by
  rw [nlStar, if_neg hc]

theorem parse_line_ne_nil (sep : Char) (fuel : Nat) (input : List Char)
    (row : List String) (r : List Char)
    (h : parse_line sep fuel input = some (row, r)) : row ≠ [] := by
  rw [parse_line] at h
  by_cases hcond : (parse_field sep input).1 = "" ∧
      (lineTail sep fuel (parse_field sep input).2).1 = []
  · rw [if_pos hcond] at h
    cases h
  · rw [if_neg hcond] at h
    injection h with h2
    injection h2 with h3 h4
    rw [← h3]
    intro hcontra
    cases hcontra

theorem svTail_rows (sep : Char) :
    ∀ (fuel : Nat) (input : List Char),
      ∀ row ∈ (svTail sep fuel input).1, row ≠ [] := by
  intro fuel
  induction fuel with
  | zero => intro input row hrow; cases hrow
  | succ f ih =>
    intro input row hrow
    rw [svTail] at hrow
    rcases hnl : nlPlus input with - | r
    · rw [hnl] at hrow
      cases hrow
    · rw [hnl] at hrow
      dsimp only at hrow
      rcases hpl : parse_line sep f r with - | lr
      · rw [hpl] at hrow
        dsimp only at hrow
        cases hrow
      · rcases lr with ⟨line, r2⟩
        rw [hpl] at hrow
        dsimp only at hrow
        rcases List.mem_cons.mp hrow with hrow2 | hrow2
        · exact hrow2 ▸ parse_line_ne_nil sep f r line r2 hpl
        · exact ih r2 row hrow2

theorem parse_sv_rows (sep : Char) (fuel : Nat) (input : List Char)
    (table : List (List String)) (rest : List Char)
    (h : parse_sv sep fuel input = some (table, rest)) :
    table ≠ [] ∧ ∀ row ∈ table, row ≠ [] := by
  rw [parse_sv] at h
  rcases hpl : parse_line sep fuel (nlStar input) with - | lr
  · rw [hpl] at h
    cases h
  · rcases lr with ⟨line1, r1⟩
    rw [hpl] at h
    dsimp only at h
    injection h with h2
    injection h2 with h3 h4
    constructor
    · rw [← h3]
      intro hc
      cases hc
    intro row hrow
    rw [← h3] at hrow
    rcases List.mem_cons.mp hrow with hrow2 | hrow2
    · exact hrow2 ▸ parse_line_ne_nil sep fuel (nlStar input) line1 r1 hpl
    · exact svTail_rows sep fuel r1 row hrow2

theorem csvParse_rows (sep : Char) (input : String)
    (table : List (List String)) (h : csvParse sep input = some table) :
    table ≠ [] ∧ ∀ row ∈ table, row ≠ [] := by
  rw [csvParse] at h
  rcases hp : parse_sv sep (input.length + 1) input.data with - | p
  · rw [hp] at h
    cases h
  · rcases p with ⟨t, r⟩
    rw [hp] at h
    cases r with
    | nil =>
      dsimp only at h
      injection h with h2
      exact h2 ▸ parse_sv_rows sep (input.length + 1) input.data t [] hp
    | cons c cr =>
      dsimp only at h
      cases h

/-! ## Output shape of the table pipeline -/

theorem longest_foldl_ge (rows : List (List String)) :
    ∀ acc : List String,
      acc.length ≤
        (rows.foldl (fun a b => if a.length > b.length then a else b) acc).length ∧
      ∀ r ∈ rows,
        r.length ≤
          (rows.foldl (fun a b => if a.length > b.length then a else b) acc).length := by
  induction rows with
  | nil => exact fun acc => ⟨Nat.le_refl _, by intro r hr; cases hr⟩
  | cons b rows ih =>
    intro acc
    rw [List.foldl_cons]
    have hstep : acc.length ≤ (if acc.length > b.length then acc else b).length := by
      split <;> omega
    have hstepb : b.length ≤ (if acc.length > b.length then acc else b).length := by
      split <;> omega
    constructor
    · exact Nat.le_trans hstep (ih (if acc.length > b.length then acc else b)).1
    · intro r hr
      rcases List.mem_cons.mp hr with hr2 | hr2
      · rw [hr2]
        exact Nat.le_trans hstepb (ih _).1
      · exact (ih _).2 r hr2

theorem longestRow_ge (rows : List (List String)) (r : List String)
    (hr : r ∈ rows) : r.length ≤ (longestRow rows).length :=
  (longest_foldl_ge rows []).2 r hr

theorem zipRows_length (rows : List (List String)) :
    (zipRows rows).length = (longestRow rows).length := by
  simp [zipRows]

theorem zipRows_getElem_zero (rows : List (List String))
    (h : 0 < (zipRows rows).length) :
    (zipRows rows)[0] = rows.map (fun row => row.getD 0 "") := by
  have h2 : 0 < (longestRow rows).length := by
    rw [← zipRows_length rows]; exact h
  simp [zipRows]

theorem convertTable_err (table : List (List String)) (opts : Options)
    (e : ConvError) (h : convertTable table opts = .error e) :
    e = ConvError.typeErr ∨ e = ConvError.emptyHeader := by
  unfold convertTable at h
  by_cases hra : opts.returnArray = true
  · rw [if_pos hra] at h
    cases h
  · rw [if_neg hra] at h
    rcases hz : (if opts.transpose = true then zipRows table else table) with - | ⟨keys0, rows⟩
    · rw [hz] at h
      dsimp only at h
      injection h with h2
      exact Or.inl h2.symm
    · rw [hz] at h
      dsimp only at h
      by_cases hk : keys0.length = 0
      · rw [if_pos hk] at h
        injection h with h2
        exact Or.inr h2.symm
      · rw [if_neg hk] at h
        by_cases hh : opts.hash = true
        · rw [if_pos hh] at h
          cases h
        · rw [if_neg hh] at h
          cases h

theorem convertTable_ne_emptyHeader (table : List (List String))
    (opts : Options) (htab : table ≠ [])
    (hrows : ∀ row ∈ table, row ≠ []) :
    convertTable table opts ≠ .error .emptyHeader := by
  intro h
  unfold convertTable at h
  by_cases hra : opts.returnArray = true
  · rw [if_pos hra] at h
    cases h
  · rw [if_neg hra] at h
    rcases hz : (if opts.transpose = true then zipRows table else table) with - | ⟨keys0, rows⟩
    · rw [hz] at h
      dsimp only at h
      injection h with h2
      cases h2
    · rw [hz] at h
      dsimp only at h
      have hk : 0 < keys0.length := by
        by_cases htr : opts.transpose = true
        · rw [if_pos htr] at hz
          have hpos : 0 < (zipRows table).length := by
            rw [hz]
            simp
          have hg := zipRows_getElem_zero table hpos
          have hgd := congrArg (fun l => l.getD 0 ([] : List String)) hz
          simp only [List.getD_cons_zero] at hgd
          rw [List.getD_eq_getElem (zipRows table) [] hpos] at hgd
          rw [hgd] at hg
          rw [hg, List.length_map]
          exact List.length_pos.mpr htab
        · rw [if_neg htr] at hz
          have hmem : keys0 ∈ table := by
            rw [hz]
            exact List.mem_cons_self keys0 rows
          exact List.length_pos.mpr (hrows keys0 hmem)
      rw [if_neg (by omega)] at h
      by_cases hh : opts.hash = true
      · rw [if_pos hh] at h
        cases h
      · rw [if_neg hh] at h
        cases h

/-! ## Behavior of the top-level conversion -/

theorem singleton_string_ne_empty (c : Char) : (⟨[c]⟩ : String) ≠ "" := by
  intro h
  have h2 := congrArg String.data h
  simp [String.data] at h2

theorem convert_err (csv : String) (opts : Options) (e : ConvError)
    (h : convert csv opts = .error e) :
    e = ConvError.empty ∨ e = ConvError.syntaxErr ∨
      e = ConvError.typeErr ∨ e = ConvError.emptyHeader := by
  unfold convert at h
  by_cases hemp : csv.length = 0
  · rw [if_pos hemp] at h
    injection h with h2
    exact Or.inl h2.symm
  · rw [if_neg hemp] at h
    rcases hos : opts.separator with - | s
    · rw [hos] at h
      dsimp only at h
      rw [if_neg (singleton_string_ne_empty (detectSeparatorC csv))] at h
      rcases hp : csvParse (if (⟨[detectSeparatorC csv]⟩ : String) = "," then ','
          else if (⟨[detectSeparatorC csv]⟩ : String) = ";" then ';'
          else if (⟨[detectSeparatorC csv]⟩ : String) = "\t" then '\t'
          else ',') csv with - | table
      · rw [hp] at h
        dsimp only at h
        injection h with h2
        exact Or.inr (Or.inl h2.symm)
      · rw [hp] at h
        dsimp only at h
        rcases convertTable_err table opts e h with h2 | h2
        · exact Or.inr (Or.inr (Or.inl h2))
        · exact Or.inr (Or.inr (Or.inr h2))
    · rw [hos] at h
      dsimp only at h
      by_cases hse : s = ""
      · rw [if_pos hse] at h
        rw [if_neg (singleton_string_ne_empty (detectSeparatorC csv))] at h
        rcases hp : csvParse (if (⟨[detectSeparatorC csv]⟩ : String) = "," then ','
            else if (⟨[detectSeparatorC csv]⟩ : String) = ";" then ';'
            else if (⟨[detectSeparatorC csv]⟩ : String) = "\t" then '\t'
            else ',') csv with - | table
        · rw [hp] at h
          dsimp only at h
          injection h with h2
          exact Or.inr (Or.inl h2.symm)
        · rw [hp] at h
          dsimp only at h
          rcases convertTable_err table opts e h with h2 | h2
          · exact Or.inr (Or.inr (Or.inl h2))
          · exact Or.inr (Or.inr (Or.inr h2))
      · rw [if_neg hse, if_neg hse] at h
        rcases hp : csvParse (if s = "," then ','
            else if s = ";" then ';' else if s = "\t" then '\t' else ',') csv
          with - | table
        · rw [hp] at h
          dsimp only at h
          injection h with h2
          exact Or.inr (Or.inl h2.symm)
        · rw [hp] at h
          dsimp only at h
          rcases convertTable_err table opts e h with h2 | h2
          · exact Or.inr (Or.inr (Or.inl h2))
          · exact Or.inr (Or.inr (Or.inr h2))

theorem convert_ne_undetectable (csv : String) (opts : Options) :
    convert csv opts ≠ .error .undetectableSeparator := by
  intro h
  rcases convert_err csv opts _ h with h2 | h2 | h2 | h2 <;> cases h2

theorem convert_ne_emptyHeader (csv : String) (opts : Options) :
    convert csv opts ≠ .error .emptyHeader := by
  intro h
  unfold convert at h
  by_cases hemp : csv.length = 0
  · rw [if_pos hemp] at h
    injection h with h2
    cases h2
  · rw [if_neg hemp] at h
    rcases hos : opts.separator with - | s
    · rw [hos] at h
      dsimp only at h
      rw [if_neg (singleton_string_ne_empty (detectSeparatorC csv))] at h
      rcases hp : csvParse (if (⟨[detectSeparatorC csv]⟩ : String) = "," then ','
          else if (⟨[detectSeparatorC csv]⟩ : String) = ";" then ';'
          else if (⟨[detectSeparatorC csv]⟩ : String) = "\t" then '\t'
          else ',') csv with - | table
      · rw [hp] at h
        dsimp only at h
        injection h with h2
        cases h2
      · rw [hp] at h
        dsimp only at h
        obtain ⟨htab, hrows⟩ := csvParse_rows _ csv table hp
        exact convertTable_ne_emptyHeader table opts htab hrows h
    · rw [hos] at h
      dsimp only at h
      by_cases hse : s = ""
      · rw [if_pos hse] at h
        rw [if_neg (singleton_string_ne_empty (detectSeparatorC csv))] at h
        rcases hp : csvParse (if (⟨[detectSeparatorC csv]⟩ : String) = "," then ','
            else if (⟨[detectSeparatorC csv]⟩ : String) = ";" then ';'
            else if (⟨[detectSeparatorC csv]⟩ : String) = "\t" then '\t'
            else ',') csv with - | table
        · rw [hp] at h
          dsimp only at h
          injection h with h2
          cases h2
        · rw [hp] at h
          dsimp only at h
          obtain ⟨htab, hrows⟩ := csvParse_rows _ csv table hp
          exact convertTable_ne_emptyHeader table opts htab hrows h
      · rw [if_neg hse, if_neg hse] at h
        rcases hp : csvParse (if s = "," then ','
            else if s = ";" then ';' else if s = "\t" then '\t' else ',') csv
          with - | table
        · rw [hp] at h
          dsimp only at h
          injection h with h2
          cases h2
        · rw [hp] at h
          dsimp only at h
          obtain ⟨htab, hrows⟩ := csvParse_rows _ csv table hp
          exact convertTable_ne_emptyHeader table opts htab hrows h

theorem detectSeparatorC_all_zero (csv : String)
    (h1 : csv.data.count ',' = 0) (h2 : csv.data.count ';' = 0)
    (h3 : csv.data.count '\t' = 0) : detectSeparatorC csv = ',' := by
  simp [detectSeparatorC, separatorsList, h1, h2, h3]

/-! ## Record construction -/

theorem objInsert_fresh {α : Type} (m : List (String × α)) (k : String)
    (v : α) (hk : k ∉ m.map Prod.fst) : objInsert m k v = m ++ [(k, v)] := by
  rw [objInsert, if_neg]
  intro hany
  obtain ⟨p, hp, hpk⟩ := List.any_eq_true.mp hany
  exact hk (List.mem_map.mpr ⟨p, hp, by simpa using hpk⟩)

theorem buildRecordGo_length (opts : Options) (hh : opts.hash = false)
    (row : List String) :
    ∀ (restKeys : List String) (i : Nat) (rec : Record),
      restKeys.Nodup → (∀ k ∈ restKeys, k ∉ rec.map Prod.fst) →
      (buildRecordGo opts row i restKeys rec).length =
        rec.length + restKeys.length := by
  intro restKeys
  induction restKeys with
  | nil => intro i rec _ _; rfl
  | cons key rest ih =>
    intro i rec hnd hfresh
    rw [buildRecordGo]
    rw [if_neg (by rw [hh]; simp)]
    have hkey_fresh : key ∉ rec.map Prod.fst :=
      hfresh key (List.mem_cons_self key rest)
    rw [objInsert_fresh rec key _ hkey_fresh]
    have hnd_rest : rest.Nodup := (List.nodup_cons.mp hnd).2
    have hkey_rest : key ∉ rest := (List.nodup_cons.mp hnd).1
    have hfresh2 : ∀ k ∈ rest, k ∉ (rec ++
        [(key, coerceValue opts.parseNumbers opts.parseJSON
          (cleanCell (row.getD i "")))]).map Prod.fst := by
      intro k hkrest
      rw [List.map_append]
      intro hmem
      rcases List.mem_append.mp hmem with hmem2 | hmem2
      · exact hfresh k (List.mem_cons_of_mem key hkrest) hmem2
      · simp at hmem2
        exact hkey_rest (hmem2 ▸ hkrest)
    rw [ih (i + 1) _ hnd_rest hfresh2]
    simp
    omega

theorem buildRecord_length (opts : Options) (hh : opts.hash = false)
    (keys row : List String) (hnd : keys.Nodup) :
    (buildRecord opts keys row).length = keys.length := by
  rw [buildRecord, buildRecordGo_length opts hh row keys 0 [] hnd (by simp)]
  simp

theorem headerKeys_length (keys0 : List String) :
    (headerKeys keys0).length = keys0.length := by
  rw [headerKeys, uniquify_length, List.length_map]

theorem convertTable_array (keys0 : List String) (rows : List (List String))
    (opts : Options) (hra : opts.returnArray = false)
    (htr : opts.transpose = false) (hh : opts.hash = false)
    (hk : keys0 ≠ []) :
    convertTable (keys0 :: rows) opts =
      .ok (.arr (rows.map (buildRecord opts (headerKeys keys0)))) := by
  unfold convertTable
  have h1 : ¬opts.transpose = true := by rw [htr]; simp
  have h2 : ¬opts.returnArray = true := by rw [hra]; simp
  have h3 : ¬opts.hash = true := by rw [hh]; simp
  rw [if_neg h1, if_neg h2]
  dsimp only
  rw [if_neg (by have := List.length_pos.mpr hk; omega), if_neg h3]

/-! ## The defensive quote-stripping pass -/

theorem stripQuotes_both (mid : List Char) :
    stripQuotes ⟨'"' :: (mid ++ ['"'])⟩ = ⟨mid⟩ := by
  have h : stripQuotes ⟨'"' :: (mid ++ ['"'])⟩ =
      ⟨if (mid ++ ['"']).getLast? = some '"' then (mid ++ ['"']).dropLast
        else mid ++ ['"']⟩ := rfl
  rw [h, List.getLast?_concat, if_pos rfl, List.dropLast_concat]

theorem stripQuotes_leading (mid : List Char)
    (hml : mid.getLast? ≠ some '"') : stripQuotes ⟨'"' :: mid⟩ = ⟨mid⟩ := by
  have h : stripQuotes ⟨'"' :: mid⟩ =
      ⟨if mid.getLast? = some '"' then mid.dropLast else mid⟩ := rfl
  rw [h, if_neg hml]

theorem stripQuotes_trailing (mid : List Char)
    (hmh : mid.head? ≠ some '"') : stripQuotes ⟨mid ++ ['"']⟩ = ⟨mid⟩ := by
  cases mid with
  | nil => rfl
  | cons c mid' =>
    simp only [stripQuotes, List.cons_append]
    have hcne : c ≠ '"' := by
      intro hcq
      exact hmh (by rw [hcq]; rfl)
    have hcond : ¬((c :: (mid' ++ ['"'])).head? = some '"') := by
      rw [List.head?_cons]
      simpa using hcne
    rw [if_neg hcond]
    rw [← List.cons_append]
    rw [List.getLast?_concat, if_pos rfl, List.dropLast_concat]

theorem parse_line_nil (sep : Char) (fuel : Nat) :
    parse_line sep fuel [] = none := by
  rw [parse_line]
  rw [show parse_field sep [] = ("", []) from rfl]
  rw [lineTail_nil]
  rw [if_pos ⟨rfl, rfl⟩]

theorem csvParse_unterminated (sep : Char) (cs : List Char)
    (hsep : sep ≠ '"') (hq : '"' ∉ cs) (hn : '\n' ∉ cs) (hr : '\r' ∉ cs)
    (hs : sep ∉ cs) :
    csvParse sep ⟨'"' :: cs⟩ = some [[⟨'"' :: cs⟩]] := by
  rw [csvParse]
  rw [show (⟨'"' :: cs⟩ : String).data = '"' :: cs from rfl]
  rw [parse_sv]
  rw [nlStar_cons_ne '"' cs (by decide)]
  rw [parse_line]
  rw [parse_field_unterminated sep cs hsep hq hn hr hs]
  dsimp only
  rw [lineTail_nil]
  rw [if_neg (by
    rintro ⟨h1, -⟩
    have h2 := congrArg String.data h1
    simp [String.data] at h2)]
  dsimp only
  rw [svTail_nil]
  rfl

/-! ## Claims -/

/-- C1 (counterexample): the de-duplicated header `["x","x","x"]` is
`["x","x__1","x__2"]` — the first occurrence stays bare and the last is
renamed `x__2` — and not `["x__2","x__1","x"]` as the claim states. -/
theorem C1_counterexample :
    uniquify ["x", "x", "x"] = ["x", "x__1", "x__2"] ∧
      uniquify ["x", "x", "x"] ≠ ["x__2", "x__1", "x"] := by
  constructor
  · decide
  · decide

/-- C1 (amended): header de-duplication renames duplicates left-to-right
leaving the first occurrence bare: de-duplication preserves length, and
the element at position `i` keeps the bare value when no earlier position
holds the same value and otherwise receives the suffix `__c` where `c` is
the number of earlier occurrences (so occurrence `p_j` of a value
occurring `k` times is renamed `value__(j-1)` for `j ≥ 2`); in particular
`["x","x","x"]` de-duplicates to `["x","x__1","x__2"]`. -/
theorem C1_amended_uniquify :
    (∀ keys : List String, (uniquify keys).length = keys.length) ∧
      (∀ (keys : List String) (i : Nat), i < keys.length →
        (uniquify keys).getD i "" = uniquifySpec keys i) ∧
      uniquify ["x", "x", "x"] = ["x", "x__1", "x__2"] :=
  ⟨uniquify_length, fun keys i hi => uniquify_getD keys i hi, by decide⟩

/-- C1 (witness): the amended characterization evaluated on the header
`["a","a"]` at position 1. -/
theorem C1_witness :
    (uniquify ["a", "a"]).getD 1 "" = uniquifySpec ["a", "a"] 1 :=
  C1_amended_uniquify.2.1 ["a", "a"] 1 (by decide)

/-- C2 (counterexample): on the input `"abc"`, in which no candidate
separator occurs, `convert` succeeds (returning an empty record array)
instead of failing with `SeparatorUndetectable`, and detection returns
the comma. -/
theorem C2_counterexample :
    convert "abc" opts0 = .ok (.arr []) ∧
      convert "abc" opts0 ≠ .error .undetectableSeparator ∧
      detectSeparatorC "abc" = ',' := by
  refine ⟨rfl, ?_, by decide⟩
  intro h
  have h1 : convert "abc" opts0 = .ok (.arr []) := rfl
  rw [h1] at h
  cases h

/-- C2 (amended): when every candidate separator has zero occurrences,
detection still returns the comma (the first candidate wins all ties,
including the all-zero tie), and `convert` therefore proceeds with the
comma separator; the `SeparatorUndetectable` failure is unreachable for
every input and every option set. -/
theorem C2_amended_detect :
    (∀ csv : String, csv.data.count ',' = 0 → csv.data.count ';' = 0 →
      csv.data.count '\t' = 0 → detectSeparatorC csv = ',') ∧
      ∀ (csv : String) (opts : Options),
        convert csv opts ≠ .error .undetectableSeparator :=
  ⟨detectSeparatorC_all_zero, convert_ne_undetectable⟩

/-- C2 (witness): the amended claim evaluated at the separator-free input
`"abc"`. -/
theorem C2_witness :
    detectSeparatorC "abc" = ',' ∧
      convert "abc" opts0 ≠ .error .undetectableSeparator :=
  ⟨C2_amended_detect.1 "abc" (by decide) (by decide) (by decide),
    C2_amended_detect.2 "abc" opts0⟩

/-- C3: a quoted field may contain the separator and literal newlines,
preserved verbatim: for any quote-free content `cs` followed by a closing
quote (not doubled), the quoted field decodes to exactly `cs`; the quoted
field `"he said ""hi"""` decodes to `he said "hi"`; and the input
`"a,b",c` newline `1,2` parses to the two rows `[["a,b","c"],["1","2"]]`. -/
theorem C3_quoted_field :
    (∀ (sep : Char) (cs rest : List Char), '"' ∉ cs →
      rest.head? ≠ some '"' →
      parse_field sep ('"' :: (cs ++ '"' :: rest)) = (⟨cs⟩, rest)) ∧
      parse_field ',' "\"he said \"\"hi\"\"\"".data = ("he said \"hi\"", []) ∧
      csvParse ',' "\"a,b\",c\n1,2" = some [["a,b", "c"], ["1", "2"]] :=
  ⟨parse_field_quoted, rfl, rfl⟩

/-- C3 (witness): a quoted field whose content contains both the
separator and a newline, decoded verbatim. -/
theorem C3_witness :
    parse_field ',' ('"' :: ("a,\nb".data ++ '"' :: [])) = ("a,\nb", []) :=
  C3_quoted_field.1 ',' "a,\nb".data [] (by decide) (by decide)

/-- C4 (counterexample): the input `"a` contains an unterminated quoted
field, yet parsing succeeds — the field is re-parsed as unquoted with the
quote kept literally — and `convert` returns a result instead of raising
`SyntaxError`. -/
theorem C4_counterexample :
    csvParse ',' "\"a" = some [["\"a"]] ∧
      convert "\"a" opts0 = .ok (.arr []) :=
  ⟨rfl, rfl⟩

/-- C4 (amended): an unterminated quoted field does not raise
`SyntaxError`: the quoted alternative fails, the parser backtracks, and
the text is re-parsed as an unquoted field with the opening quote kept
literally — for any separator other than the quote and any field text
free of quotes, line breaks and separators, the input consisting of an
opening quote followed by that text parses successfully to a single row
holding the text with its opening quote. -/
theorem C4_amended_unterminated (sep : Char) (cs : List Char)
    (hsep : sep ≠ '"') (hq : '"' ∉ cs) (hn : '\n' ∉ cs) (hr : '\r' ∉ cs)
    (hs : sep ∉ cs) :
    csvParse sep ⟨'"' :: cs⟩ = some [[⟨'"' :: cs⟩]] :=
  csvParse_unterminated sep cs hsep hq hn hr hs

/-- C4 (witness): the amended claim evaluated on the input `"abc`. -/
theorem C4_witness :
    csvParse ',' ⟨'"' :: "abc".data⟩ = some [[⟨'"' :: "abc".data⟩]] :=
  C4_amended_unterminated ',' "abc".data (by decide) (by decide) (by decide)
    (by decide) (by decide)

/-- C5 (counterexample): the quote-stripping pass removes a quote sitting
at only one end: the cleaned value of `"a` is `a` (changed), and likewise
`a"` cleans to `a`, contradicting the claim that one-sided quotes are
left unchanged. -/
theorem C5_counterexample :
    cleanCell "\"a" = "a" ∧ cleanCell "a\"" = "a" ∧ "a" ≠ "\"a" :=
  ⟨rfl, rfl, by decide⟩

/-- C5 (amended): after whitespace trimming, the pass strips one leading
double quote if present and one trailing double quote if present, each
independently: a value quoted at both ends loses both quotes, a value
with only a leading quote loses it, and a value with only a trailing
quote loses it. -/
theorem C5_amended_strip :
    (∀ mid : List Char, stripQuotes ⟨'"' :: (mid ++ ['"'])⟩ = ⟨mid⟩) ∧
      (∀ mid : List Char, mid.getLast? ≠ some '"' →
        stripQuotes ⟨'"' :: mid⟩ = ⟨mid⟩) ∧
      ∀ mid : List Char, mid.head? ≠ some '"' →
        stripQuotes ⟨mid ++ ['"']⟩ = ⟨mid⟩ :=
  ⟨stripQuotes_both, stripQuotes_leading, stripQuotes_trailing⟩

/-- C5 (witness): the three stripping shapes evaluated on the content
`a`. -/
theorem C5_witness :
    stripQuotes ⟨'"' :: ("a".data ++ ['"'])⟩ = "a" ∧
      stripQuotes ⟨'"' :: "a".data⟩ = "a" ∧
      stripQuotes ⟨"a".data ++ ['"']⟩ = "a" :=
  ⟨C5_amended_strip.1 "a".data, C5_amended_strip.2.1 "a".data (by decide),
    C5_amended_strip.2.2 "a".data (by decide)⟩

/-- C6 (counterexample): on the input `b,,b,b__1` with one data row,
conversion succeeds but the de-duplicated keys are
`["b","","b__1","b__1"]` — they contain the empty string and a repeated
key (the rename of the duplicate `b` collides with the original `b__1`),
so the resulting record has three keys instead of four. -/
theorem C6_counterexample :
    convert "b,,b,b__1\n1,2,3,4" opts0 =
      .ok (.arr [[("b", .str "1"), ("", .str "2"), ("b__1", .str "4")]]) ∧
      headerKeys ["b", "", "b", "b__1"] = ["b", "", "b__1", "b__1"] ∧
      ¬ (["b", "", "b__1", "b__1"] : List String).Nodup ∧
      "" ∈ headerKeys ["b", "", "b", "b__1"] :=
  ⟨rfl, by decide, by decide, by decide⟩

/-- C6 (amended): after de-duplication the header keys are pairwise
unique provided no cleaned header value contains the substring `__`; the
keys need not be non-empty (a header cell that cleans to the empty string
yields the empty key). -/
theorem C6_amended_unique (keys0 : List String)
    (hdu : ∀ k ∈ keys0, hasDU (cleanCell k) = false) :
    (headerKeys keys0).Nodup := by
  apply uniquify_nodup
  intro k hk
  obtain ⟨k0, hk0, hk0eq⟩ := List.mem_map.mp hk
  rw [← hk0eq]
  exact hdu k0 hk0

/-- C6 (witness): the amended claim evaluated on the header
`["a","b","a"]`. -/
theorem C6_witness : (headerKeys ["a", "b", "a"]).Nodup :=
  C6_amended_unique ["a", "b", "a"] (by decide)

/-- C7: for a rectangular table whose header row has K columns with
pairwise-distinct de-duplicated keys and whose N data rows each have K
cells, array-mode conversion returns the ordered per-row records, of
length N, and every record has exactly K keys. -/
theorem C7_array_shape (keys0 : List String) (rows : List (List String))
    (opts : Options) (hra : opts.returnArray = false)
    (htr : opts.transpose = false) (hh : opts.hash = false)
    (hk : keys0 ≠ []) (hnd : (headerKeys keys0).Nodup)
    (_hrect : ∀ row ∈ rows, row.length = keys0.length) :
    convertTable (keys0 :: rows) opts =
      .ok (.arr (rows.map (buildRecord opts (headerKeys keys0)))) ∧
      (rows.map (buildRecord opts (headerKeys keys0))).length = rows.length ∧
      ∀ rec ∈ rows.map (buildRecord opts (headerKeys keys0)),
        rec.length = keys0.length := by
  refine ⟨convertTable_array keys0 rows opts hra htr hh hk,
    List.length_map rows _, ?_⟩
  intro rec hrec
  obtain ⟨row, hrow, hroweq⟩ := List.mem_map.mp hrec
  rw [← hroweq, buildRecord_length opts hh _ row hnd, headerKeys_length]

/-- C7 (witness): the shape claim evaluated on a 2-by-2 rectangular
table. -/
theorem C7_witness :
    convertTable [["a", "b"], ["1", "2"], ["3", "4"]] opts0 =
      .ok (.arr ([["1", "2"], ["3", "4"]].map
        (buildRecord opts0 (headerKeys ["a", "b"])))) ∧
      ([["1", "2"], ["3", "4"]].map
        (buildRecord opts0 (headerKeys ["a", "b"]))).length = 2 ∧
      ∀ rec ∈ [["1", "2"], ["3", "4"]].map
        (buildRecord opts0 (headerKeys ["a", "b"])),
        rec.length = 2 :=
  C7_array_shape ["a", "b"] [["1", "2"], ["3", "4"]] opts0 rfl rfl rfl
    (by decide) (by decide) (by decide)

/-- C8: with `parseNumbers` set and `parseJSON` unset, the cleaned cell
`42` coerces to the number 42, the cleaned cell `42a` stays the string
`"42a"`, and the empty cleaned cell never parses as a number and stays
the empty string. -/
theorem C8_parse_numbers :
    coerceValue true false "42" = .num 42 ∧
      coerceValue true false "42a" = .str "42a" ∧
      coerceValue true false "" = .str "" := by
  refine ⟨?_, rfl, rfl⟩
  have h : coerceValue true false "42" =
      .num ((((42 : Nat) : Rat) + ((0 : Nat) : Rat) / (10 : Rat) ^ (0 : Nat)) *
        (10 : Rat) ^ (0 : Int)) := rfl
  rw [h, Value.num.injEq]
  norm_num

/-- C9: header de-duplication is idempotent on headers none of whose
values contains the `__` convention: applying `uniquify` twice equals
applying it once. -/
theorem C9_idempotent (keys : List String)
    (hdu : ∀ k ∈ keys, hasDU k = false) :
    uniquify (uniquify keys) = uniquify keys :=
  uniquify_of_nodup (uniquify keys) (uniquify_nodup keys hdu)

/-- C9 (witness): idempotence evaluated on the header `["x","x"]`. -/
theorem C9_witness : uniquify (uniquify ["x", "x"]) = uniquify ["x", "x"] :=
  C9_idempotent ["x", "x"] (by decide)

/-- C10: a line consisting of a single empty unquoted field and nothing
else does not parse; every successfully parsed table has at least one
row and every row has at least one field; consequently `convert` can
never fail with the `EmptyHeader` error, for any input and any options
(including transpose). -/
theorem C10_emptyHeader_unreachable :
    (∀ (sep : Char) (fuel : Nat), parse_line sep fuel [] = none) ∧
      (∀ (sep : Char) (input : String) (table : List (List String)),
        csvParse sep input = some table →
          table ≠ [] ∧ ∀ row ∈ table, row ≠ []) ∧
      ∀ (csv : String) (opts : Options),
        convert csv opts ≠ .error .emptyHeader :=
  ⟨parse_line_nil, csvParse_rows, convert_ne_emptyHeader⟩

/-- C10 (witness): the parse facts evaluated on the one-cell input `a`. -/
theorem C10_witness :
    parse_line ',' 5 [] = none ∧
      ([["a"]] : List (List String)) ≠ [] ∧
      (∀ row ∈ ([["a"]] : List (List String)), row ≠ []) ∧
      convert "a" opts0 ≠ .error .emptyHeader := by
  refine ⟨C10_emptyHeader_unreachable.1 ',' 5, ?_, ?_,
    C10_emptyHeader_unreachable.2.2 "a" opts0⟩
  · exact (C10_emptyHeader_unreachable.2.1 ',' "a" [["a"]] rfl).1
  · exact (C10_emptyHeader_unreachable.2.1 ',' "a" [["a"]] rfl).2

end Csv2Json

